import Mathlib

/-!
Shallow embedding of `src/index.ts` of the `tokenx` package (approximate
tokenizer, estimator and chunker).  Strings are modelled as lists of Unicode
scalar values (`List Char`); JavaScript's UTF-16 `string.length` is modelled
by `utf16Len`, and `Array.from(s).length` (code-point count) by
`List.length`.  Numbers (`maxTokens`, `overlap`) are modelled as `Int`;
running token counts, which are sums of non-negative counts, as `Nat`.
`chunkByMaxTokens` returns an `Option`, `none` denoting the TypeError the
JavaScript code raises when the overlap walk dereferences `chunk[-2]` on an
empty running chunk.
-/

namespace Tokenx

/-- JS `\s` character class used by `WHITESPACE_RE = /^\s+$/` and the
whitespace alternative of the splitting regex in `approximateTokenChunks`. -/
def isJsWhitespace (c : Char) : Bool :=
  let v := c.toNat
  v == 0x20 || v == 0x09 || v == 0x0A || v == 0x0B || v == 0x0C || v == 0x0D ||
  v == 0xA0 || v == 0x1680 || (0x2000 ≤ v && v ≤ 0x200A) ||
  v == 0x2028 || v == 0x2029 || v == 0x202F || v == 0x205F || v == 0x3000 || v == 0xFEFF

/-- Character ranges of `CJK_RE` in the source, one disjunct per `\uXXXX-\uXXXX`
range of the regex character class. -/
def isCJK (c : Char) : Bool :=
  let v := c.toNat
  (0x4E00 ≤ v && v ≤ 0x9FFF) || (0x3400 ≤ v && v ≤ 0x4DBF) ||
  (0x3000 ≤ v && v ≤ 0x303F) || (0xFF00 ≤ v && v ≤ 0xFFEF) ||
  (0x30A0 ≤ v && v ≤ 0x30FF) || (0x2E80 ≤ v && v ≤ 0x2EFF) ||
  (0x31C0 ≤ v && v ≤ 0x31EF) || (0x3200 ≤ v && v ≤ 0x32FF) ||
  (0x3300 ≤ v && v ≤ 0x33FF) || (0xAC00 ≤ v && v ≤ 0xD7AF) ||
  (0x1100 ≤ v && v ≤ 0x11FF) || (0x3130 ≤ v && v ≤ 0x318F) ||
  (0xA960 ≤ v && v ≤ 0xA97F) || (0xD7B0 ≤ v && v ≤ 0xD7FF)

/-- Characters of `NUMERIC_SEQUENCE_RE = /[\d.,]+/`: an ASCII digit, a period
or a comma.  The regex is unanchored, so `NUMERIC_SEQUENCE_RE.test(token)`
holds exactly when the token contains one of these characters. -/
def isNumericChar (c : Char) : Bool :=
  let v := c.toNat
  (0x30 ≤ v && v ≤ 0x39) || v == 0x2E || v == 0x2C

/-- Characters of `PUNCTUATION_RE` (also the punctuation alternative of the
splitting regex): `. , ! ? ;` the three ASCII and four typographic quote
characters `' " „ “ ” ‘ ’`, `- ( ) 0x7B 0x7D [ ] < > : / \ | @ # $ % ^ & * + =`
the backtick 0x60 and `~`, written here by code point. -/
def isPunct (c : Char) : Bool :=
  let v := c.toNat
  v == 0x2E || v == 0x2C || v == 0x21 || v == 0x3F || v == 0x3B ||
  v == 0x27 || v == 0x22 || v == 0x201E || v == 0x201C || v == 0x201D ||
  v == 0x2018 || v == 0x2019 || v == 0x2D || v == 0x28 || v == 0x29 ||
  v == 0x7B || v == 0x7D || v == 0x5B || v == 0x5D || v == 0x3C ||
  v == 0x3E || v == 0x3A || v == 0x2F || v == 0x5C || v == 0x7C ||
  v == 0x40 || v == 0x23 || v == 0x24 || v == 0x25 || v == 0x5E ||
  v == 0x26 || v == 0x2A || v == 0x2B || v == 0x3D || v == 0x60 || v == 0x7E

/-- Characters of the single language metric `/[äöüßẞ]/i`: the German umlauts
in both cases, sharp s and capital sharp s (case-insensitive closure of the
regex class). -/
def isUmlaut (c : Char) : Bool :=
  let v := c.toNat
  v == 0xE4 || v == 0xC4 || v == 0xF6 || v == 0xD6 ||
  v == 0xFC || v == 0xDC || v == 0xDF || v == 0x1E9E

/-- Characters of `ALPHANUMERIC_RE = /^[a-zA-Z0-9À-ÖØ-öø-ÿ]+$/`. -/
def isAlnumLatin (c : Char) : Bool :=
  let v := c.toNat
  (0x61 ≤ v && v ≤ 0x7A) || (0x41 ≤ v && v ≤ 0x5A) || (0x30 ≤ v && v ≤ 0x39) ||
  (0xC0 ≤ v && v ≤ 0xD6) || (0xD8 ≤ v && v ≤ 0xF6) || (0xF8 ≤ v && v ≤ 0xFF)

/-- JavaScript `string.length`: the number of UTF-16 code units, i.e. 2 for a
scalar value above the basic multilingual plane and 1 otherwise. -/
def utf16Len : List Char → Nat
  | [] => 0
  | c :: t => (if 0x10000 ≤ c.toNat then 2 else 1) + utf16Len t

/-- The `TokenCount` interface of the source: a rough token (substring) paired
with its estimated token count. -/
structure TokenCount where
  token : List Char
  count : Nat
deriving DecidableEq, Repr

/-- Classification of a character for the splitting regex
`/(\s+|[.,!?;'"„“”‘’\-(){}[\]<>:/\\|@#$%^&*+=`~]+)/`: 0 for whitespace,
1 for punctuation, 2 for anything else.  The regex (with the separator
capture group, empty pieces filtered out) splits the input into maximal runs
of characters of equal class. -/
def charClass (c : Char) : Nat :=
  if isJsWhitespace c then 0 else if isPunct c then 1 else 2

/-- The `roughTokens` of `approximateTokenChunks`:
`input.split(/(\s+|[...]+)/).filter(Boolean)`, i.e. the maximal runs of
characters of equal `charClass`. -/
def roughTokens (input : List Char) : List (List Char) :=
  input.splitBy (fun a b => charClass a == charClass b)

/-- The estimator branch cascade of `approximateTokenChunks`, applied to one
rough token.  The branches mirror the source in order: whitespace-only,
CJK, numeric sequence, short token, punctuation, alphanumeric or language
metric, fallback.  `Math.ceil(a / b)` on non-negative integers is
`(a + b - 1) / b` in `Nat`. -/
def tokenCount (t : List Char) : Nat :=
  let averageCharsPerToken : Option Nat := if t.any isUmlaut then some 3 else none
  if !t.isEmpty && t.all isJsWhitespace then 0
  else if t.any isCJK then t.length
  else if t.any isNumericChar then 1
  else if utf16Len t ≤ 3 then 1
  else if t.any isPunct then (if 1 < utf16Len t then (utf16Len t + 1) / 2 else 1)
  else if (!t.isEmpty && t.all isAlnumLatin) || averageCharsPerToken.isSome then
    (utf16Len t + averageCharsPerToken.getD 6 - 1) / averageCharsPerToken.getD 6
  else t.length

/-- `approximateTokenChunks` of the source: split into rough tokens and pair
each with its estimated count. -/
def approximateTokenChunks (input : List Char) : List TokenCount :=
  (roughTokens input).map (fun t => ⟨t, tokenCount t⟩)

/-- `approximateTokenSize` of the source: the sum (a left fold, as in
`reduce`) of the counts. -/
def approximateTokenSize (input : List Char) : Nat :=
  (approximateTokenChunks input).foldl (fun acc p => acc + p.count) 0

/-- Sum of the counts of a list of pairs (the "total estimated token count"
of a chunk). -/
def totalCount (l : List TokenCount) : Nat :=
  (l.map TokenCount.count).sum

/-- JavaScript `Array.prototype.slice` with one possibly negative index
argument: a non-negative start drops that many elements, a negative start
counts from the end (clamped at 0). -/
def jsSlice (l : List TokenCount) (i : Int) : List TokenCount :=
  if 0 ≤ i then l.drop i.toNat else l.drop ((l.length : Int) + i).toNat

/-- The loop `while (i-- && count < overlap) count += chunk[i].count` of
`chunkByMaxTokens`, for a non-empty closed chunk.  The first argument is the
reversed strict prefix `chunk.slice(0, i)` of the elements below the current
index `i`, so that the loop invariant is `i = revPre.length`; the result is
the pair of the final value of `i` (which `i--` has pushed to `-1` when the
walk ran past the start) and the final value of `count`. -/
def walkLoop (overlap : Int) : List TokenCount → Nat → Int × Nat
  | [], count => (-1, count)
  | a :: rest, count =>
    if (count : Int) < overlap then walkLoop overlap rest (count + a.count)
    else ((rest.length : Int), count)

/-- The reseeding step of `chunkByMaxTokens` in the `overlap > 0` branch:
set `i = chunk.length - 1` and `count = 0`, run `walkLoop`, then take
`chunk.slice(i)` as the new chunk together with the final `count`.  When the
closed chunk is empty the JavaScript loop reads `chunk[-2].count`, which is a
TypeError: this is the `none` case. -/
def reseed (chunk : List TokenCount) (overlap : Int) : Option (List TokenCount × Nat) :=
  if chunk.isEmpty then none
  else
    some (jsSlice chunk (walkLoop overlap chunk.dropLast.reverse 0).1,
      (walkLoop overlap chunk.dropLast.reverse 0).2)

/-- State of the `for (const token of counts)` loop of `chunkByMaxTokens`:
the emitted chunks, the running chunk and the running count. -/
structure ChunkState where
  chunks : List (List TokenCount)
  chunk : List TokenCount
  count : Nat
deriving DecidableEq, Repr

/-- One iteration of the loop of `chunkByMaxTokens`: close the running chunk
when adding the incoming pair would exceed `maxTokens` (reseeding it when
`overlap > 0`, restarting it empty otherwise), then append the pair and add
its count. -/
def chunkStep (maxTokens overlap : Int) (st : ChunkState) (tok : TokenCount) :
    Option ChunkState :=
  if maxTokens < (st.count : Int) + (tok.count : Int) then
    if 0 < overlap then
      match reseed st.chunk overlap with
      | none => none
      | some r => some ⟨st.chunks ++ [st.chunk], r.1 ++ [tok], r.2 + tok.count⟩
    else
      some ⟨st.chunks ++ [st.chunk], [tok], tok.count⟩
  else
    some ⟨st.chunks, st.chunk ++ [tok], st.count + tok.count⟩

/-- The chunking loop of `chunkByMaxTokens` run over a list of pairs,
returning the emitted chunks as lists of pairs (before the final
`join('')`).  After the loop, a non-empty running chunk is emitted. -/
def chunkPairs (counts : List TokenCount) (maxTokens overlap : Int) :
    Option (List (List TokenCount)) :=
  match counts.foldlM (chunkStep maxTokens overlap) ⟨[], [], 0⟩ with
  | none => none
  | some st => some (if st.chunk.isEmpty then st.chunks else st.chunks ++ [st.chunk])

/-- `chunkByMaxTokens` of the source: run the chunking loop over
`approximateTokenChunks(input)` and materialize each chunk by concatenating
its tokens. -/
def chunkByMaxTokens (input : List Char) (maxTokens : Int) (overlap : Int := 0) :
    Option (List (List Char)) :=
  match chunkPairs (approximateTokenChunks input) maxTokens overlap with
  | none => none
  | some cs => some (cs.map (fun c => (c.map TokenCount.token).flatten))

/-- `isWithinTokenLimit` of the source. -/
def isWithinTokenLimit (input : List Char) (tokenLimit : Int) : Bool :=
  (approximateTokenSize input : Int) ≤ tokenLimit

/-! Definitions following the specification's words for the overlap reseeding
step, for comparison with the code-derived `reseed` (claim C3).  The spec says:
"walk backward from the end of the just-closed chunk accumulating counts until
accumulated overlap-count ≥ `overlap` (or the start of the chunk is reached);
the new chunk is seeded with that trailing slice of pairs (and the running sum
set to that slice's total)." -/

/-- Spec-worded backward walk on the reversed chunk: accumulate elements until
the accumulated count reaches the remaining threshold, or the list (i.e. the
start of the chunk) is exhausted. -/
def specTake : List TokenCount → Int → List TokenCount
  | [], _ => []
  | a :: rest, ov => if ov ≤ (a.count : Int) then [a] else a :: specTake rest (ov - a.count)

/-- Spec-worded seed: the trailing slice of the just-closed chunk obtained by
walking backward from its end until the accumulated count is at least
`overlap` (the whole chunk when the start is reached first). -/
def specSeed (chunk : List TokenCount) (overlap : Int) : List TokenCount :=
  (specTake chunk.reverse overlap).reverse

/-- Spec-worded reseeding: the seed together with the seed's total count as
the new running sum. -/
def specReseed (chunk : List TokenCount) (overlap : Int) : List TokenCount × Nat :=
  (specSeed chunk overlap, totalCount (specSeed chunk overlap))

/-- The chunking loop step as the specification describes it: identical to
`chunkStep` except that reseeding follows `specReseed`. -/
def specChunkStep (maxTokens overlap : Int) (st : ChunkState) (tok : TokenCount) :
    ChunkState :=
  if maxTokens < (st.count : Int) + (tok.count : Int) then
    if 0 < overlap then
      let r := specReseed st.chunk overlap
      ⟨st.chunks ++ [st.chunk], r.1 ++ [tok], r.2 + tok.count⟩
    else
      ⟨st.chunks ++ [st.chunk], [tok], tok.count⟩
  else
    ⟨st.chunks, st.chunk ++ [tok], st.count + tok.count⟩

/-- The chunking pipeline with the spec-worded reseeding step. -/
def specChunkByMaxTokens (input : List Char) (maxTokens : Int) (overlap : Int := 0) :
    List (List Char) :=
  let st := (approximateTokenChunks input).foldl (specChunkStep maxTokens overlap) ⟨[], [], 0⟩
  let cs := if st.chunk.isEmpty then st.chunks else st.chunks ++ [st.chunk]
  cs.map (fun c => (c.map TokenCount.token).flatten)

/-- Minimal prefix extraction describing what the code's backward walk
actually accumulates: `grab l ov` takes elements of `l` until their
accumulated count reaches `ov` (all of `l` when it never does) and returns
how many elements were taken together with their total count. -/
def grab : List TokenCount → Int → Nat × Nat
  | [], _ => (0, 0)
  | a :: rest, ov =>
    if ov ≤ (a.count : Int) then (1, a.count)
    else ((grab rest (ov - a.count)).1 + 1, a.count + (grab rest (ov - a.count)).2)

/-- What the code's reseeding step actually computes on a non-empty closed
chunk (the amended claim C3): the walk accumulates counts starting at the
second-to-last pair; writing `front` for the chunk without its last pair and
`(k, s)` for the length and total of the minimal trailing part of `front`
whose total reaches `overlap`, when the walk stops strictly inside `front`
the new chunk is the slice starting one pair before that stopping point and
the running sum is `s` (which counts neither that extra pair nor the last
pair); when the walk runs past the start of the chunk the new chunk is just
the last pair and the running sum is the total of `front`. -/
def amendedReseed (chunk : List TokenCount) (overlap : Int) : List TokenCount × Nat :=
  if overlap ≤ ((grab chunk.dropLast.reverse overlap).2 : Int) ∧
      (grab chunk.dropLast.reverse overlap).1 < chunk.dropLast.length then
    (chunk.drop (chunk.dropLast.length - (grab chunk.dropLast.reverse overlap).1 - 1),
      (grab chunk.dropLast.reverse overlap).2)
  else
    (chunk.drop (chunk.length - 1), (grab chunk.dropLast.reverse overlap).2)

/-- The loop step of `chunkByMaxTokens` specialized to `overlap = 0`, where
it cannot raise: closing resets the running chunk to the incoming pair. -/
def chunkStep0 (maxTokens : Int) (st : ChunkState) (tok : TokenCount) : ChunkState :=
  if maxTokens < (st.count : Int) + (tok.count : Int) then
    ⟨st.chunks ++ [st.chunk], [tok], tok.count⟩
  else
    ⟨st.chunks, st.chunk ++ [tok], st.count + tok.count⟩

/-- Final emission after the chunking loop: a non-empty running chunk is
appended to the emitted chunks. -/
def finishChunks (st : ChunkState) : List (List TokenCount) :=
  if st.chunk.isEmpty then st.chunks else st.chunks ++ [st.chunk]

/-- The chunking loop over pairs at `overlap = 0`, as a total function. -/
def chunkPairs0 (counts : List TokenCount) (maxTokens : Int) : List (List TokenCount) :=
  finishChunks (counts.foldl (chunkStep0 maxTokens) ⟨[], [], 0⟩)

/-- Budget property of an emitted chunk (claim C2): its total estimated count
is within `maxTokens`, or it is a single pair whose own count exceeds
`maxTokens`. -/
abbrev Budget (maxTokens : Int) (c : List TokenCount) : Prop :=
  (totalCount c : Int) ≤ maxTokens ∨ ∃ p, c = [p] ∧ maxTokens < (p.count : Int)

/-- Input exhibiting non-monotonicity of the chunk count in `overlap`: a
19-letter word (count 4), a four-bang punctuation run (count 2), a space
(count 0), the word again (count 4), one bang (count 1) and the word again
(count 4). -/
def monotonicityInput : List Char :=
  List.replicate 19 'a' ++ ['!', '!', '!', '!', ' '] ++
    List.replicate 19 'a' ++ ['!'] ++ List.replicate 19 'a'

end Tokenx

namespace Tokenx

lemma utf16Len_pos {t : List Char} (h : t ≠ []) : 1 ≤ utf16Len t := by
  cases t with
  | nil => exact absurd rfl h
  | cons c t =>
    show 1 ≤ (if 0x10000 ≤ c.toNat then 2 else 1) + utf16Len t
    split <;> omega

lemma bool_false_of_not {b : Bool} (h : ¬ b = true) : b = false := by
  revert h; cases b <;> simp

lemma isEmpty_false_of_ne_nil {α : Type} {t : List α} (h : t ≠ []) : t.isEmpty = false := by
  cases t with
  | nil => exact absurd rfl h
  | cons c t => rfl

lemma any_of_all_of_ne_nil {t : List Char} {p : Char → Bool} (h : t ≠ [])
    (hall : t.all p = true) : t.any p = true := by
  cases t with
  | nil => exact absurd rfl h
  | cons c t =>
    simp only [List.all_cons, Bool.and_eq_true] at hall
    simp [List.any_cons, hall.1]

/-- Evaluation lemma: `tokenCount` of a non-empty whitespace-only rough token
is 0 (the first branch of the estimator). -/
lemma tokenCount_of_ws {t : List Char} (h : t ≠ []) (hws : t.all isJsWhitespace = true) :
    tokenCount t = 0 := by
  simp [tokenCount, isEmpty_false_of_ne_nil h, hws]

/-- Every branch of the estimator other than the whitespace branch yields a
positive count on a non-empty rough token. -/
lemma tokenCount_pos {t : List Char} (h : t ≠ []) (hws : ¬ t.all isJsWhitespace = true) :
    1 ≤ tokenCount t := by
  have hlen : 1 ≤ t.length := List.length_pos.mpr h
  have hu : 1 ≤ utf16Len t := utf16Len_pos h
  simp only [tokenCount, bool_false_of_not hws, Bool.and_false, Bool.false_eq_true,
    if_false]
  split
  · exact hlen
  split
  · exact Nat.le_refl 1
  split
  · exact Nat.le_refl 1
  rename_i hshort
  have hu4 : 4 ≤ utf16Len t := by omega
  split
  · split <;> omega
  split
  · simp only [Option.isSome_some, Bool.or_true, if_true, Option.getD_some]
    omega
  · simp only [Option.isSome_none, Bool.or_false, Option.getD_none]
    split
    · omega
    · exact hlen

lemma map_token_approximateTokenChunks (input : List Char) :
    (approximateTokenChunks input).map TokenCount.token = roughTokens input := by
  unfold approximateTokenChunks
  rw [List.map_map]
  exact List.map_id _

/-- C1: for every input string, concatenating the substrings of the pairs
returned by `approximateTokenChunks`, in order, reproduces the input exactly:
the segmentation is a lossless, total partition. -/
theorem approximateTokenChunks_lossless (input : List Char) :
    ((approximateTokenChunks input).map TokenCount.token).flatten = input := by
  rw [map_token_approximateTokenChunks]
  exact List.flatten_splitBy _ input

/-- C5: a rough token that is not whitespace-only, contains no CJK-range
character, contains no character of the numeric-sequence class (digit, period
or comma), has UTF-16 length greater than 3 and consists entirely of
punctuation-class characters is estimated at `ceil(length / 2)`, written
`(utf16Len t + 1) / 2` in `Nat`. -/
theorem punctuationRun_count (t : List Char)
    (hws : ¬ t.all isJsWhitespace = true)
    (hcjk : t.any isCJK = false)
    (hnum : t.any isNumericChar = false)
    (hlen : 3 < utf16Len t)
    (hpunct : t.all isPunct = true) :
    tokenCount t = (utf16Len t + 1) / 2 := by
  have hne : t ≠ [] := by
    intro hnil
    rw [hnil] at hlen
    simp [utf16Len] at hlen
  have hany : t.any isPunct = true := any_of_all_of_ne_nil hne hpunct
  simp only [tokenCount, bool_false_of_not hws, Bool.and_false, Bool.false_eq_true,
    if_false, hcjk, hnum, hany, eq_self_iff_true, if_true, Nat.not_le.mpr hlen]
  split
  · rfl
  · omega

/-- C5 witness: the four-bang punctuation run has estimated count 2. -/
theorem punctuationRun_count_witness : tokenCount ['!', '!', '!', '!'] = 2 :=
  (punctuationRun_count ['!', '!', '!', '!'] (by decide) (by decide) (by decide)
    (by decide) (by decide)).trans (by decide)

/-- C6: the token size of the reference sentence is exactly 11. -/
theorem approximateTokenSize_reference :
    approximateTokenSize "Hello, world! This is a short sentence.".data = 11 := by
  decide

/-- C10: a pair produced by `approximateTokenChunks` has count 0 exactly when
its substring is whitespace-only, and otherwise its count is at least 1 (all
counts are `Nat`, hence non-negative). -/
theorem count_zero_iff_whitespace (input : List Char) (p : TokenCount)
    (hp : p ∈ approximateTokenChunks input) :
    (p.count = 0 ↔ p.token.all isJsWhitespace = true) ∧
      (¬ p.token.all isJsWhitespace = true → 1 ≤ p.count) := by
  unfold approximateTokenChunks roughTokens at hp
  rw [List.mem_map] at hp
  obtain ⟨t, ht, rfl⟩ := hp
  have hne : t ≠ [] := List.ne_nil_of_mem_splitBy _ ht
  constructor
  · constructor
    · intro h0
      by_contra hws
      have := tokenCount_pos hne hws
      simp only at h0
      omega
    · intro hws
      exact tokenCount_of_ws hne hws
  · intro hws
    exact tokenCount_pos hne hws

/-- C10 witness: in the segmentation of a space followed by a letter, the
space pair has count 0 and is whitespace-only. -/
theorem count_zero_iff_whitespace_witness :
    ((⟨[' '], 0⟩ : TokenCount).count = 0 ↔
        (⟨[' '], 0⟩ : TokenCount).token.all isJsWhitespace = true) ∧
      (¬ (⟨[' '], 0⟩ : TokenCount).token.all isJsWhitespace = true →
        1 ≤ (⟨[' '], 0⟩ : TokenCount).count) :=
  count_zero_iff_whitespace [' ', 'a'] ⟨[' '], 0⟩ (by decide)

/-- C2 counterexample: on the input `"aaaaaaa!"` with `maxTokens = 2` and
`overlap = 1`, the second emitted chunk holds two pairs of counts 2 and 1
(total 3 > 2), neither of which exceeds `maxTokens` on its own, because the
reseeding step restarts the running sum below the seeded chunk's real total. -/
theorem chunkBudget_counterexample :
    chunkPairs (approximateTokenChunks "aaaaaaa!".data) 2 1 =
      some [[⟨"aaaaaaa".data, 2⟩], [⟨"aaaaaaa".data, 2⟩, ⟨"!".data, 1⟩]] ∧
      ¬ Budget 2 [⟨"aaaaaaa".data, 2⟩, ⟨"!".data, 1⟩] := by
  constructor
  · decide
  · rintro (hle | ⟨p, hp, _⟩)
    · exact absurd hle (by decide)
    · have hl := congrArg List.length hp
      simp at hl

/-- C3 counterexample: on the input `"aaaaaaa!a"` with `maxTokens = 2` and
`overlap = 1`, the code's chunking differs from the chunking that reseeds
with the spec-described trailing slice and its total count. -/
theorem overlapReseed_counterexample :
    chunkByMaxTokens "aaaaaaa!a".data 2 1 ≠
      some (specChunkByMaxTokens "aaaaaaa!a".data 2 1) := by
  decide

/-- C4 counterexample: an oversized first pair makes the closing step fire on
the empty running chunk, so an empty chunk is emitted. -/
theorem emptyChunk_counterexample :
    chunkByMaxTokens (List.replicate 13 'a') 2 0 =
        some [[], List.replicate 13 'a'] ∧
      [] ∈ [([] : List Char), List.replicate 13 'a'] := by
  constructor
  · decide
  · exact List.mem_cons_self _ _

/-- C7 counterexample: on `monotonicityInput` with `maxTokens = 5`,
`overlap = 1` yields five chunks but the larger `overlap = 3` yields four. -/
theorem overlapMonotonicity_counterexample :
    (chunkByMaxTokens monotonicityInput 5 1).map List.length = some 5 ∧
      (chunkByMaxTokens monotonicityInput 5 3).map List.length = some 4 := by
  constructor
  · decide
  · decide

/-- C8 counterexample: with `maxTokens = 0` the call silently produces an
output (a leading empty chunk followed by the whole input) instead of
rejecting with a validation error. -/
theorem noValidation_counterexample :
    chunkByMaxTokens "abc".data 0 0 = some [[], "abc".data] := by
  decide

lemma chunkStep_zero (m : Int) (st : ChunkState) (tok : TokenCount) :
    chunkStep m 0 st tok = some (chunkStep0 m st tok) := by
  unfold chunkStep chunkStep0
  split
  · rw [if_neg (lt_irrefl 0)]
  · rfl

lemma foldlM_chunkStep_zero (m : Int) :
    ∀ (counts : List TokenCount) (st : ChunkState),
      counts.foldlM (chunkStep m 0) st = some (counts.foldl (chunkStep0 m) st) := by
  intro counts
  induction counts with
  | nil => intro st; rfl
  | cons tok rest ih =>
    intro st
    rw [List.foldlM_cons, chunkStep_zero, Option.bind_eq_bind, Option.some_bind,
      List.foldl_cons]
    exact ih _

lemma chunkPairs_zero (counts : List TokenCount) (m : Int) :
    chunkPairs counts m 0 = some (chunkPairs0 counts m) := by
  unfold chunkPairs chunkPairs0 finishChunks
  rw [foldlM_chunkStep_zero]

lemma totalCount_append (a b : List TokenCount) :
    totalCount (a ++ b) = totalCount a + totalCount b := by
  simp [totalCount]

lemma foldl_chunkStep0_flatten (m : Int) :
    ∀ (counts : List TokenCount) (st : ChunkState),
      (counts.foldl (chunkStep0 m) st).chunks.flatten ++ (counts.foldl (chunkStep0 m) st).chunk
        = st.chunks.flatten ++ st.chunk ++ counts := by
  intro counts
  induction counts with
  | nil => intro st; simp
  | cons tok rest ih =>
    intro st
    rw [List.foldl_cons, ih]
    unfold chunkStep0
    split <;> simp

lemma chunkPairs0_flatten (counts : List TokenCount) (m : Int) :
    (chunkPairs0 counts m).flatten = counts := by
  unfold chunkPairs0 finishChunks
  have h := foldl_chunkStep0_flatten m counts ⟨[], [], 0⟩
  simp only [List.flatten_nil, List.nil_append] at h
  split
  · rename_i he
    rw [List.isEmpty_iff] at he
    rw [he, List.append_nil] at h
    exact h
  · rw [List.flatten_append, List.flatten_cons, List.flatten_nil, List.append_nil]
    exact h

lemma count_le_totalCount {p : TokenCount} {c : List TokenCount} (hp : p ∈ c) :
    p.count ≤ totalCount c := by
  induction c with
  | nil => simp at hp
  | cons a c ih =>
    rcases List.mem_cons.mp hp with rfl | hp'
    · simp [totalCount]
    · have := ih hp'
      simp only [totalCount, List.map_cons, List.sum_cons] at *
      omega

lemma foldl_chunkStep0_budget (m : Int) :
    ∀ (counts : List TokenCount) (st : ChunkState),
      st.count = totalCount st.chunk →
      Budget m st.chunk →
      (∀ c ∈ st.chunks, Budget m c) →
      (counts.foldl (chunkStep0 m) st).count
          = totalCount (counts.foldl (chunkStep0 m) st).chunk ∧
        Budget m (counts.foldl (chunkStep0 m) st).chunk ∧
        ∀ c ∈ (counts.foldl (chunkStep0 m) st).chunks, Budget m c := by
  intro counts
  induction counts with
  | nil => intro st h1 h2 h3; exact ⟨h1, h2, h3⟩
  | cons tok rest ih =>
    intro st h1 h2 h3
    rw [List.foldl_cons]
    refine ih _ ?_ ?_ ?_
    · unfold chunkStep0
      split <;> simp [totalCount, h1]
    · unfold chunkStep0
      split
      · rcases le_or_lt (tok.count : Int) m with hle | hgt
        · exact Or.inl (by simpa [totalCount] using hle)
        · exact Or.inr ⟨tok, rfl, hgt⟩
      · rename_i hpush
        rw [not_lt] at hpush
        refine Or.inl ?_
        simp only [totalCount_append, ← h1]
        simpa [totalCount] using hpush
    · unfold chunkStep0
      split
      · intro c hc
        rcases List.mem_append.mp hc with hc' | hc'
        · exact h3 c hc'
        · rw [List.mem_singleton] at hc'
          rw [hc']
          exact h2
      · exact h3

lemma chunkPairs_budget {counts : List TokenCount} {m : Int} (hm : 0 ≤ m)
    {cs : List (List TokenCount)} (hcs : chunkPairs counts m 0 = some cs) :
    ∀ c ∈ cs, Budget m c := by
  rw [chunkPairs_zero] at hcs
  cases hcs
  unfold chunkPairs0 finishChunks
  have h := foldl_chunkStep0_budget m counts ⟨[], [], 0⟩ (by simp [totalCount])
    (Or.inl (by simp [totalCount]; exact hm)) (by simp)
  split
  · exact h.2.2
  · intro c hc
    rcases List.mem_append.mp hc with hc' | hc'
    · exact h.2.2 c hc'
    · rw [List.mem_singleton] at hc'
      rw [hc']
      exact h.2.1

lemma chunkPairs_flatten {counts : List TokenCount} {m : Int}
    {cs : List (List TokenCount)} (hcs : chunkPairs counts m 0 = some cs) :
    cs.flatten = counts := by
  rw [chunkPairs_zero] at hcs
  cases hcs
  exact chunkPairs0_flatten counts m

/-- C2 amended: with `overlap = 0`, every emitted chunk's total estimated
count is at most `maxTokens`, except chunks made of a single pair whose own
count exceeds `maxTokens`. -/
theorem chunkBudget_of_zero_overlap (input : List Char) (m : Int) (hm : 0 < m)
    (cs : List (List TokenCount))
    (hcs : chunkPairs (approximateTokenChunks input) m 0 = some cs) :
    ∀ c ∈ cs, Budget m c :=
  chunkPairs_budget (le_of_lt hm) hcs

/-- C2 amended witness: the single chunk produced for `"aaaaaaa"` with
`maxTokens = 5` satisfies the budget property. -/
theorem chunkBudget_of_zero_overlap_witness :
    Budget 5 [⟨"aaaaaaa".data, 2⟩] :=
  chunkBudget_of_zero_overlap "aaaaaaa".data 5 (by decide)
    [[⟨"aaaaaaa".data, 2⟩]] (by decide) [⟨"aaaaaaa".data, 2⟩] (by decide)

/-- C4 amended: with `overlap = 0`, no pair is ever dropped (the emitted
chunks flatten back to the full pair sequence) and a pair whose count
exceeds `maxTokens` is always alone in its chunk; however (see the
counterexample) the closing step also fires on an empty running chunk, so an
empty chunk can be emitted just before an oversized pair. -/
theorem oversizedPair_own_chunk (input : List Char) (m : Int) (hm : 0 < m)
    (cs : List (List TokenCount))
    (hcs : chunkPairs (approximateTokenChunks input) m 0 = some cs) :
    cs.flatten = approximateTokenChunks input ∧
      ∀ c ∈ cs, ∀ p ∈ c, m < (p.count : Int) → c = [p] := by
  refine ⟨chunkPairs_flatten hcs, ?_⟩
  intro c hc p hp hbig
  rcases chunkPairs_budget (le_of_lt hm) hcs c hc with hle | ⟨q, rfl, _⟩
  · have hpc := count_le_totalCount hp
    have : (p.count : Int) ≤ (totalCount c : Int) := by exact_mod_cast hpc
    omega
  · rw [List.mem_singleton] at hp
    rw [hp]

/-- C4 amended witness: for the 13-letter word (count 3) with
`maxTokens = 2`, the emitted pair chunks flatten to the pair sequence and
the oversized pair sits alone in its chunk. -/
theorem oversizedPair_own_chunk_witness :
    ([[], [⟨List.replicate 13 'a', 3⟩]] : List (List TokenCount)).flatten
        = approximateTokenChunks (List.replicate 13 'a') ∧
      ([⟨List.replicate 13 'a', 3⟩] : List TokenCount) = [⟨List.replicate 13 'a', 3⟩] :=
  ⟨(oversizedPair_own_chunk (List.replicate 13 'a') 2 (by decide)
      [[], [⟨List.replicate 13 'a', 3⟩]] (by decide)).1,
    (oversizedPair_own_chunk (List.replicate 13 'a') 2 (by decide)
        [[], [⟨List.replicate 13 'a', 3⟩]] (by decide)).2
      [⟨List.replicate 13 'a', 3⟩] (by decide) ⟨List.replicate 13 'a', 3⟩ (by decide)
      (by decide)⟩

lemma tokens_flatten_eq (input : List Char) :
    ((approximateTokenChunks input).map TokenCount.token).flatten = input := by
  rw [map_token_approximateTokenChunks]
  exact List.flatten_splitBy _ input

lemma flatten_map_flatten (cs : List (List TokenCount)) :
    (cs.map (fun c => (c.map TokenCount.token).flatten)).flatten
      = (cs.flatten.map TokenCount.token).flatten := by
  rw [List.map_flatten, List.flatten_flatten, List.map_map]
  rfl

/-- C9: with the default `overlap = 0` and positive `maxTokens`, the strings
returned by `chunkByMaxTokens` concatenate, in order, to the input exactly. -/
theorem chunkByMaxTokens_partition (input : List Char) (m : Int) (_hm : 0 < m) :
    ∃ l, chunkByMaxTokens input m 0 = some l ∧ l.flatten = input := by
  refine ⟨(chunkPairs0 (approximateTokenChunks input) m).map
    (fun c => (c.map TokenCount.token).flatten), ?_, ?_⟩
  · unfold chunkByMaxTokens
    rw [chunkPairs_zero]
  · rw [flatten_map_flatten, chunkPairs0_flatten]
    exact tokens_flatten_eq input

/-- C9 witness: concatenating the chunks of `"a b"` at `maxTokens = 1`
restores the input. -/
theorem chunkByMaxTokens_partition_witness :
    ∃ l, chunkByMaxTokens "a b".data 1 0 = some l ∧ l.flatten = "a b".data :=
  chunkByMaxTokens_partition "a b".data 1 (by decide)

/-- C8 amended: `chunkByMaxTokens` performs no validation of `maxTokens`:
with a non-positive `maxTokens` (and the default `overlap = 0`) it silently
produces an output rather than rejecting the call. -/
theorem noValidation_silent_output (input : List Char) (m : Int) (_hm : m ≤ 0) :
    ∃ l, chunkByMaxTokens input m 0 = some l := by
  refine ⟨(chunkPairs0 (approximateTokenChunks input) m).map
    (fun c => (c.map TokenCount.token).flatten), ?_⟩
  unfold chunkByMaxTokens
  rw [chunkPairs_zero]

/-- C8 amended witness: `maxTokens = 0` on `"abc"` still returns a result. -/
theorem noValidation_silent_output_witness :
    ∃ l, chunkByMaxTokens "abc".data 0 0 = some l :=
  noValidation_silent_output "abc".data 0 (by decide)

lemma walkLoop_count_le {ov : Int} :
    ∀ (revPre : List TokenCount) (c : Nat), c ≤ (walkLoop ov revPre c).2 := by
  intro revPre
  induction revPre with
  | nil => intro c; exact Nat.le_refl c
  | cons a rest ih =>
    intro c
    unfold walkLoop
    split
    · exact le_trans (Nat.le_add_right c a.count) (ih (c + a.count))
    · exact Nat.le_refl c

lemma walkLoop_count_mono {o1 o2 : Int} (h : o1 ≤ o2) :
    ∀ (revPre : List TokenCount) (c : Nat),
      (walkLoop o1 revPre c).2 ≤ (walkLoop o2 revPre c).2 := by
  intro revPre
  induction revPre with
  | nil => intro c; exact Nat.le_refl c
  | cons a rest ih =>
    intro c
    by_cases hc1 : (c : Int) < o1
    · have hc2 : (c : Int) < o2 := lt_of_lt_of_le hc1 h
      unfold walkLoop
      rw [if_pos hc1, if_pos hc2]
      exact ih _
    · unfold walkLoop
      rw [if_neg hc1]
      by_cases hc2 : (c : Int) < o2
      · rw [if_pos hc2]
        exact le_trans (Nat.le_add_right c a.count) (walkLoop_count_le rest _)
      · rw [if_neg hc2]

/-- C7 amended: for a fixed just-closed chunk, increasing `overlap` never
decreases the count that seeds the next chunk's running sum (the walk only
runs further); the number of emitted chunks, by contrast, is not monotone in
`overlap` (see the counterexample). -/
theorem reseedCount_mono (ch : List TokenCount) (o1 o2 : Int) (h : o1 ≤ o2)
    (s1 s2 : List TokenCount × Nat)
    (h1 : reseed ch o1 = some s1) (h2 : reseed ch o2 = some s2) :
    s1.2 ≤ s2.2 := by
  unfold reseed at h1 h2
  by_cases he : ch.isEmpty
  · rw [if_pos he] at h1
    exact absurd h1 (by simp)
  · rw [if_neg he] at h1 h2
    cases h1
    cases h2
    exact walkLoop_count_mono h ch.dropLast.reverse 0

lemma walkLoop_eq_grab :
    ∀ (revPre : List TokenCount) (d : Int) (c : Nat), 0 < d →
      walkLoop (d + (c : Int)) revPre c =
        if d ≤ ((grab revPre d).2 : Int) ∧ (grab revPre d).1 < revPre.length then
          ((revPre.length : Int) - ((grab revPre d).1 : Int) - 1, c + (grab revPre d).2)
        else (-1, c + (grab revPre d).2) := by
  intro revPre
  induction revPre with
  | nil =>
    intro d c hd
    rw [show grab [] d = (0, 0) from rfl]
    rw [if_neg (by simp)]
    rw [show walkLoop (d + (c : Int)) [] c = (-1, c) from rfl]
    rw [Nat.add_zero]
  | cons a rest ih =>
    intro d c hd
    have hc : (c : Int) < d + (c : Int) := by omega
    rw [show walkLoop (d + (c : Int)) (a :: rest) c
        = if (c : Int) < d + (c : Int) then walkLoop (d + (c : Int)) rest (c + a.count)
          else ((rest.length : Int), c) from rfl, if_pos hc]
    have hgeq : grab (a :: rest) d
        = if d ≤ (a.count : Int) then (1, a.count)
          else ((grab rest (d - a.count)).1 + 1, a.count + (grab rest (d - a.count)).2) := rfl
    by_cases hA : d ≤ (a.count : Int)
    · have hg : grab (a :: rest) d = (1, a.count) := by rw [hgeq, if_pos hA]
      rw [hg]
      cases rest with
      | nil =>
        rw [show walkLoop (d + (c : Int)) [] (c + a.count) = (-1, c + a.count) from rfl]
        rw [if_neg (by simp)]
      | cons b rest2 =>
        have hnlt : ¬ ((c + a.count : Nat) : Int) < d + (c : Int) := by push_cast; omega
        rw [show walkLoop (d + (c : Int)) (b :: rest2) (c + a.count)
            = if ((c + a.count : Nat) : Int) < d + (c : Int) then
                walkLoop (d + (c : Int)) rest2 (c + a.count + b.count)
              else ((rest2.length : Int), c + a.count) from rfl, if_neg hnlt]
        rw [if_pos ⟨hA, by simp only [List.length_cons]; omega⟩]
        refine Prod.ext ?_ rfl
        simp only [List.length_cons]
        push_cast
        ring
    · rw [not_le] at hA
      have hg : grab (a :: rest) d
          = ((grab rest (d - a.count)).1 + 1, a.count + (grab rest (d - a.count)).2) := by
        rw [hgeq, if_neg (not_le.mpr hA)]
      rw [hg]
      have hd' : 0 < d - (a.count : Int) := by omega
      have hov : d + (c : Int) = (d - (a.count : Int)) + ((c + a.count : Nat) : Int) := by
        push_cast
        ring
      rw [hov, ih (d - (a.count : Int)) (c + a.count) hd']
      by_cases hcond : d - (a.count : Int) ≤ ((grab rest (d - (a.count : Int))).2 : Int) ∧
          (grab rest (d - (a.count : Int))).1 < rest.length
      · rw [if_pos hcond,
          if_pos (by simp only [List.length_cons]; push_cast at hcond ⊢; omega)]
        refine Prod.ext ?_ ?_
        · simp only [List.length_cons]
          push_cast
          ring
        · show c + a.count + (grab rest (d - (a.count : Int))).2
            = c + (a.count + (grab rest (d - (a.count : Int))).2)
          omega
      · rw [if_neg hcond,
          if_neg (by simp only [List.length_cons]; push_cast at hcond ⊢; omega)]
        refine Prod.ext rfl ?_
        show c + a.count + (grab rest (d - (a.count : Int))).2
          = c + (a.count + (grab rest (d - (a.count : Int))).2)
        omega

/-- C3 amended: on a non-empty closed chunk and positive overlap, the code's
reseeding step computes exactly `amendedReseed`: the walk accumulates counts
from the second-to-last pair backwards; if it reaches the overlap threshold
strictly inside the front of the chunk, the seed starts one pair before the
stopping point and the running sum is the accumulated count (excluding both
that extra pair and the last pair); otherwise the seed is just the last pair
and the running sum is the total of all pairs but the last. -/
theorem reseed_eq_amendedReseed (ch : List TokenCount) (ov : Int)
    (hne : ch ≠ []) (hov : 0 < ov) :
    reseed ch ov = some (amendedReseed ch ov) := by
  unfold reseed amendedReseed
  have he : ¬ ch.isEmpty = true := by
    rw [isEmpty_false_of_ne_nil hne]
    simp
  rw [if_neg he]
  have h0 : walkLoop ov ch.dropLast.reverse 0
      = if ov ≤ ((grab ch.dropLast.reverse ov).2 : Int) ∧
            (grab ch.dropLast.reverse ov).1 < ch.dropLast.reverse.length then
          ((ch.dropLast.reverse.length : Int) - ((grab ch.dropLast.reverse ov).1 : Int) - 1,
            0 + (grab ch.dropLast.reverse ov).2)
        else (-1, 0 + (grab ch.dropLast.reverse ov).2) := by
    have h := walkLoop_eq_grab ch.dropLast.reverse ov 0 hov
    simpa using h
  rw [h0]
  by_cases hcond : ov ≤ ((grab ch.dropLast.reverse ov).2 : Int) ∧
      (grab ch.dropLast.reverse ov).1 < ch.dropLast.reverse.length
  · rw [if_pos hcond]
    rw [List.length_reverse] at hcond
    rw [if_pos hcond]
    refine congrArg some (Prod.ext ?_ (by omega))
    show jsSlice ch _ = _
    unfold jsSlice
    rw [List.length_reverse, if_pos (by omega)]
    congr 1
    omega
  · rw [if_neg hcond]
    rw [List.length_reverse] at hcond
    rw [if_neg hcond]
    refine congrArg some (Prod.ext ?_ (by omega))
    show jsSlice ch (-1) = _
    unfold jsSlice
    rw [if_neg (by omega)]
    congr 1
    omega

/-- C3 amended witness: on the single-pair chunk of count 2 with overlap 1,
the code seeds the last (only) pair with running sum 0, as `amendedReseed`
prescribes. -/
theorem reseed_eq_amendedReseed_witness :
    reseed [⟨['a'], 2⟩] 1 = some (amendedReseed [⟨['a'], 2⟩] 1) ∧
      amendedReseed [⟨['a'], 2⟩] 1 = ([⟨['a'], 2⟩], 0) :=
  ⟨reseed_eq_amendedReseed [⟨['a'], 2⟩] 1 (by decide) (by decide), by decide⟩

/-- C7 amended witness: on the chunk of three unit-count pairs, overlap 1
seeds count 1 and overlap 3 seeds count 2. -/
theorem reseedCount_mono_witness :
    reseed [⟨['a'], 1⟩, ⟨['b'], 1⟩, ⟨['c'], 1⟩] 1
        = some ([⟨['a'], 1⟩, ⟨['b'], 1⟩, ⟨['c'], 1⟩], 1) ∧
      reseed [⟨['a'], 1⟩, ⟨['b'], 1⟩, ⟨['c'], 1⟩] 3 = some ([⟨['c'], 1⟩], 2) ∧
      (([⟨['a'], 1⟩, ⟨['b'], 1⟩, ⟨['c'], 1⟩], 1) : List TokenCount × Nat).2
        ≤ (([⟨['c'], 1⟩], 2) : List TokenCount × Nat).2 :=
  ⟨by decide, by decide,
    reseedCount_mono [⟨['a'], 1⟩, ⟨['b'], 1⟩, ⟨['c'], 1⟩] 1 3 (by decide) _ _
      (by decide) (by decide)⟩

end Tokenx
